import Mathlib

/-!
Formal model of the auction_reporter discovery pipeline.

Python strings are modelled as lists of characters (`Str`).  Python's
`str.lower` is modelled by `pyLowerS` (character table covering ASCII and the
Latin accented letters used by this code base), `str.strip` by `pyStrip`, and
the substring test `v in t` by `substr v t`.  Accent removal
(`unicodedata.normalize('NFD', ...)` followed by dropping combining marks) is
modelled by `removeAccents`: precomposed accented Latin letters are mapped to
their base letter and stray combining marks are dropped.
-/

abbrev Str := List Char

/-- Character translation table for Python `str.lower` restricted to the
alphabet relevant to this code base: ASCII upper-case letters and the
precomposed accented Latin capitals. -/
def lowerPairs : List (Char × Char) :=
  [('A', 'a'), ('B', 'b'), ('C', 'c'), ('D', 'd'), ('E', 'e'), ('F', 'f'),
   ('G', 'g'), ('H', 'h'), ('I', 'i'), ('J', 'j'), ('K', 'k'), ('L', 'l'),
   ('M', 'm'), ('N', 'n'), ('O', 'o'), ('P', 'p'), ('Q', 'q'), ('R', 'r'),
   ('S', 's'), ('T', 't'), ('U', 'u'), ('V', 'v'), ('W', 'w'), ('X', 'x'),
   ('Y', 'y'), ('Z', 'z'),
   ('À', 'à'), ('Á', 'á'), ('Â', 'â'), ('Ã', 'ã'), ('Ä', 'ä'),
   ('Ç', 'ç'), ('É', 'é'), ('È', 'è'), ('Ê', 'ê'), ('Ë', 'ë'),
   ('Í', 'í'), ('Ì', 'ì'), ('Î', 'î'), ('Ï', 'ï'),
   ('Ó', 'ó'), ('Ò', 'ò'), ('Ô', 'ô'), ('Õ', 'õ'), ('Ö', 'ö'),
   ('Ú', 'ú'), ('Ù', 'ù'), ('Û', 'û'), ('Ü', 'ü'), ('Ñ', 'ñ')]

/-- Model of Python `str.lower` on a single character. -/
def pyLowerChar (c : Char) : Char := (lowerPairs.lookup c).getD c

/-- Model of Python `str.lower` on a string. -/
def pyLowerS (s : Str) : Str := s.map pyLowerChar

/-- Model of Python `str.strip` (drop leading and trailing whitespace). -/
def pyStrip (s : Str) : Str :=
  ((s.dropWhile Char.isWhitespace).reverse.dropWhile Char.isWhitespace).reverse

/-- Translation table for accent removal: each precomposed accented Latin
letter decomposes under NFD into its base letter plus a combining mark of
category Mn, which the code drops. -/
def accentPairs : List (Char × Char) :=
  [('á', 'a'), ('à', 'a'), ('â', 'a'), ('ã', 'a'), ('ä', 'a'),
   ('é', 'e'), ('è', 'e'), ('ê', 'e'), ('ë', 'e'),
   ('í', 'i'), ('ì', 'i'), ('î', 'i'), ('ï', 'i'),
   ('ó', 'o'), ('ò', 'o'), ('ô', 'o'), ('õ', 'o'), ('ö', 'o'),
   ('ú', 'u'), ('ù', 'u'), ('û', 'u'), ('ü', 'u'),
   ('ç', 'c'), ('ñ', 'n'),
   ('Á', 'A'), ('À', 'A'), ('Â', 'A'), ('Ã', 'A'), ('Ä', 'A'),
   ('É', 'E'), ('È', 'E'), ('Ê', 'E'), ('Ë', 'E'),
   ('Í', 'I'), ('Ì', 'I'), ('Î', 'I'), ('Ï', 'I'),
   ('Ó', 'O'), ('Ò', 'O'), ('Ô', 'O'), ('Õ', 'O'), ('Ö', 'O'),
   ('Ú', 'U'), ('Ù', 'U'), ('Û', 'U'), ('Ü', 'U'),
   ('Ç', 'C'), ('Ñ', 'N')]

/-- Accent removal on one character (precomposed forms). -/
def removeAccentChar (c : Char) : Char := (accentPairs.lookup c).getD c

/-- The combining marks (category Mn) that NFD produces for the letters in
`accentPairs`; they are dropped by the accent-removal step. -/
def combiningMarks : List Char :=
  ['̀', '́', '̂', '̃', '̈', '̧']

/-- Model of the accent-removal step in `_generate_query_variations`:
NFD normalisation followed by dropping all category-Mn characters. -/
def removeAccents (s : Str) : Str :=
  (s.map removeAccentChar).filter (fun c => !combiningMarks.contains c)

/-- Model of Python's substring containment used as `v in t` on strings:
`leadsWith v t` holds when `t` starts with `v`. -/
def leadsWith : Str → Str → Bool
  | [], _ => true
  | _ :: _, [] => false
  | a :: v, b :: t => a == b && leadsWith v t

/-- Model of Python `v in t` on strings: `v` occurs contiguously in `t`. -/
def substr (v : Str) : Str → Bool
  | [] => v.isEmpty
  | c :: t => leadsWith v (c :: t) || substr v t

/-- Model of the normalisation `query.lower().strip()` that both
`get_location_config` and `_generate_query_variations` apply first. -/
def normalizeQ (q : Str) : Str := pyStrip (pyLowerS q)

/-!
Location registry and query handling, from src/config.py and
src/adapters/central_sul_adapter.py.
-/

/-- One entry of the `LOCATIONS` registry in src/config.py.  Every entry of
the registry carries a `name`, a `state` and an `aliases` list; only
`itapiruba` carries a `fallback_url`. -/
structure LocationConfig where
  name : Str
  state : Str
  aliases : List Str
  fallback_url : Option Str := none
deriving DecidableEq

def itapirubaCfg : LocationConfig :=
  { name := "Itapiruba".toList
    state := "SC".toList
    aliases := ["itapirubá".toList, "itapiruba/sc".toList, "itapirubá/sc".toList]
    fallback_url := some "https://www.centralsuldeleiloes.com.br/leilao/9867/lote/235407/imovel-com-area-de-375-00m2-no-loteamento-balneario-itapiruba-no-municipio-de-laguna-sc".toList }

def florianopolisCfg : LocationConfig :=
  { name := "Florianópolis".toList
    state := "SC".toList
    aliases := ["floripa".toList, "florianopolis/sc".toList, "florianópolis/sc".toList] }

def balnearioCamboriuCfg : LocationConfig :=
  { name := "Balneário Camboriú".toList
    state := "SC".toList
    aliases := ["balneario camboriu".toList, "bc".toList, "balneario".toList,
                "camboriú".toList, "camboriu".toList] }

def saoPauloCfg : LocationConfig :=
  { name := "São Paulo".toList
    state := "SP".toList
    aliases := ["sao paulo".toList, "sp".toList, "sao paulo/sp".toList, "são paulo/sp".toList] }

def rioDeJaneiroCfg : LocationConfig :=
  { name := "Rio de Janeiro".toList
    state := "RJ".toList
    aliases := ["rio".toList, "rj".toList, "rio de janeiro".toList, "rio de janeiro/rj".toList] }

/-- The `LOCATIONS` dictionary of src/config.py (insertion order preserved). -/
def LOCATIONS : List (Str × LocationConfig) :=
  [("itapiruba".toList, itapirubaCfg),
   ("florianopolis".toList, florianopolisCfg),
   ("balneario-camboriu".toList, balnearioCamboriuCfg),
   ("sao-paulo".toList, saoPauloCfg),
   ("rio-de-janeiro".toList, rioDeJaneiroCfg)]

/-- Body of `get_location_config` after the query has been lowered and
stripped: exact id/name match, then exact alias match, then partial
(substring) match against ids and aliases; `none` models the empty dict
returned when nothing matches. -/
def getLocationConfigCore (ql : Str) : Option LocationConfig :=
  match LOCATIONS.find? (fun p => ql == p.1 || ql == pyLowerS p.2.name) with
  | some p => some p.2
  | none =>
  match LOCATIONS.find? (fun p => p.2.aliases.any (fun a => pyLowerS a == ql)) with
  | some p => some p.2
  | none =>
  match LOCATIONS.find? (fun p =>
      substr p.1 ql || substr ql p.1 ||
      p.2.aliases.any (fun a => substr (pyLowerS a) ql || substr ql (pyLowerS a))) with
  | some p => some p.2
  | none => none

/-- Model of `get_location_config` from src/config.py. -/
def getLocationConfig (q : Str) : Option LocationConfig :=
  getLocationConfigCore (normalizeQ q)

/-- Model of `_get_fallback_auction_for_query`. -/
def getFallbackAuctionForQuery (q : Str) : Option Str :=
  match getLocationConfig q with
  | some cfg => cfg.fallback_url
  | none => none

/-- The variation list `_generate_query_variations` builds before its final
case-insensitive dedup pass, as a function of the lowered and stripped
query.  In the known-location branch the `"state" in location_config` test
is always true because every registry entry carries a state.  In the other
branch the final for-loop appends `"query/state"` for the first location
whose aliases contain the query as a list member or whose id contains it as
a substring. -/
def rawVariations (query : Str) : List Str :=
  match getLocationConfig query with
  | some cfg =>
    [query] ++ [pyLowerS cfg.name] ++ cfg.aliases.map pyLowerS
      ++ [pyLowerS cfg.name ++ '/' :: pyLowerS cfg.state]
  | none =>
    let normalized := removeAccents query
    let base := if normalized ≠ query then [query, normalized] else [query]
    if query.contains '/' then
      base ++ [query.filter (fun c => !(c == '/'))]
    else
      match LOCATIONS.find? (fun p => p.2.aliases.contains query || substr query p.1) with
      | some p => base ++ [query ++ '/' :: pyLowerS p.2.state]
      | none => base

/-- The final loop of `_generate_query_variations`: lower each variation and
keep it only when that lowered form was not seen before. -/
def uniqueVars (acc : List Str) : List Str → List Str
  | [] => acc
  | v :: vs =>
    let vl := pyLowerS v
    if vl ∈ acc then uniqueVars acc vs else uniqueVars (acc ++ [vl]) vs

/-- Model of `_generate_query_variations` from the CentralSul adapter. -/
def generateQueryVariations (q : Str) : List Str :=
  uniqueVars [] (rawVariations (normalizeQ q))

/-!
Auction records as handled by the adapter pipeline.  A Python record here is
a dict whose values the pipeline reads or writes through fixed keys; a field
value `none` models an absent key.  `extra` stands for the remaining dict
entries, which the pipeline carries along untouched.
-/

/-- The resolved relevance annotation that `filter_relevant_auctions` stores
on a record. -/
structure RelevanceInfo where
  is_relevant : Option Bool
  confidence : Rat
  reason : Str
deriving DecidableEq

structure AuctionRec where
  url : Option Str := none
  title : Option Str := none
  description : Option Str := none
  auction_title : Option Str := none
  match_reason : Option Str := none
  relevance : Option RelevanceInfo := none
  source : Option Str := none
  images : Option (List Str) := none
  evaluation : Option Str := none
  minimum_bid : Option Str := none
  current_bid : Option Str := none
  closing_at : Option Str := none
  html_content : Option Str := none
  extra : Nat := 0
deriving DecidableEq

/-- Loop body of `_deduplicate_auctions` (and of the top-level dedup in
`lambda_handler`): the insertion-ordered dict keyed by `url` is represented
by the list of kept records plus the list `seen` of keys inserted so far; a
record is kept when `auction.get('url')` is truthy (present and non-empty)
and not a key of the dict yet. -/
def dedupGo (seen : List Str) : List AuctionRec → List AuctionRec
  | [] => []
  | a :: rest =>
    match a.url with
    | none => dedupGo seen rest
    | some u =>
      if u ≠ [] ∧ u ∉ seen then a :: dedupGo (seen ++ [u]) rest
      else dedupGo seen rest

/-- Model of `CentralSulAdapter._deduplicate_auctions`. -/
def deduplicate_auctions (xs : List AuctionRec) : List AuctionRec := dedupGo [] xs

/-- Model of the top-level dedup loop in `lambda_handler`
(src/lambda_function.py lines 103 to 111); it is the same URL-keyed
first-seen-wins dict loop as `_deduplicate_auctions`. -/
def lambdaHandlerDedup (xs : List AuctionRec) : List AuctionRec := dedupGo [] xs

/-- The searchable text of a record in `_filter_auctions`: lowered title,
description and parent auction title joined by single spaces, with an absent
key read as the empty string. -/
def auctionText (a : AuctionRec) : Str :=
  pyLowerS (a.title.getD []) ++ ' ' :: pyLowerS (a.description.getD [])
    ++ ' ' :: pyLowerS (a.auction_title.getD [])

/-- First query variation contained in the record's text, if any. -/
def matchedVariation (vars : List Str) (a : AuctionRec) : Option Str :=
  vars.find? (fun v => substr v (auctionText a))

/-- Annotation step of `_filter_auctions`: when some variation matches, the
first match is recorded as the record's `match_reason`. -/
def annotateFirst (vars : List Str) (a : AuctionRec) : AuctionRec :=
  match matchedVariation vars a with
  | some v => { a with match_reason := some ("Matched term: ".toList ++ v) }
  | none => a

/-- Model of `CentralSulAdapter._filter_auctions`, including the truthiness
gate `if matched_variation:` on the loop's result: a record is annotated and
kept only when the first variation contained in its text is truthy, i.e.
neither `None` (no variation matched) nor the empty string (which is falsy,
so the record is dropped even though it matched). -/
def filter_auctions (raw_auctions : List AuctionRec) (query : Str) : List AuctionRec :=
  let vars := generateQueryVariations query
  raw_auctions.filterMap (fun a =>
    match matchedVariation vars a with
    | some v =>
      if v.isEmpty then none
      else some { a with match_reason := some ("Matched term: ".toList ++ v) }
    | none => none)

/-!
Detail-page extraction, the per-source search with its exception handling,
and the top-level aggregation, from src/adapters/central_sul_adapter.py and
src/lambda_function.py.  Browser interaction is external: the resolved
content of a rendered detail page is an oracle value of type `DetailPage`,
and stages that perform input/output are oracles returning `Except`, whose
`error` case models a raised exception.
-/

/-- The field values that the selector cascades of `get_auction_details`
resolve from a rendered detail page. -/
structure DetailPage where
  title : Option Str := none
  description : Str := []
  images : List Str := []
  evaluation : Option Str := none
  minimum_bid : Option Str := none
  current_bid : Option Str := none
  closing_at : Option Str := none
  html : Str := []

/-- Model of `get_auction_details` (success path, LLM enrichment disabled as
in the default configuration): the `details` dict is built from the resolved
page fields.  No `url` key is ever written into `details`, which is why the
record's `url` is `none`. -/
def getAuctionDetails (page : DetailPage) : AuctionRec :=
  { url := none
    title := some (page.title.getD "Unknown".toList)
    description := some (if page.description.isEmpty
      then "No description available".toList else pyStrip page.description)
    images := some page.images
    evaluation := page.evaluation
    minimum_bid := page.minimum_bid
    current_bid := page.current_bid
    closing_at := page.closing_at
    html_content := some page.html }

/-- Model of `_selenium_search` after element extraction: `extracted` is the
list of records resolved from the result page (each of which the code only
keeps with a truthy `url`), and when it is empty and the query has a
configured fallback URL the code appends the record fetched from that detail
page (`if details:` is true because the details dict is never empty). -/
def seleniumSearch (extracted : List AuctionRec) (pageOf : Str → DetailPage)
    (query : Str) : List AuctionRec :=
  if extracted.isEmpty then
    match getFallbackAuctionForQuery query with
    | some u => [getAuctionDetails (pageOf u)]
    | none => []
  else extracted

/-- Model of `CentralSulAdapter.search`: the try block runs selenium search,
dedup, keyword filtering and (conditionally) description fetching; the
except clause catches any raised exception and the function returns the
current value of the `auctions` variable — `[]` when the selenium stage
raised, the filtered list when the description fetch raised. -/
def searchRun (seleniumOutcome : Except Str (List AuctionRec))
    (fetchOutcome : List AuctionRec → Except Str (List AuctionRec))
    (fetchDescriptions : Bool) (query : Str) : List AuctionRec :=
  match seleniumOutcome with
  | .error _ => []
  | .ok raw =>
    let deduped := deduplicate_auctions raw
    let filtered := filter_auctions deduped query
    if !filtered.isEmpty && fetchDescriptions then
      match fetchOutcome filtered with
      | .ok enriched => enriched
      | .error _ => filtered
    else filtered

/-- The conversion loop of `search_all_sources`: each record gets
`source = 'central_sul'` and goes through `Auction.from_dict` and `to_dict`
(modelled by the `convert` oracle, whose `error` case models a raised
exception); on an exception the per-source except clause stops the loop and
the records appended so far remain in `all_auctions`. -/
def convertLoop (convert : AuctionRec → Except Str AuctionRec)
    (acc : List AuctionRec) : List AuctionRec → List AuctionRec
  | [] => acc
  | a :: rest =>
    match convert { a with source := some "central_sul".toList } with
    | .ok b => convertLoop convert (acc ++ [b]) rest
    | .error _ => acc

/-- Model of `search_all_sources`: the driver is acquired first (a failure is
caught by the outer except clause and `[]` is returned), then the single
configured source runs inside its own try block. -/
def searchAllSources (driverOutcome : Except Str Unit)
    (seleniumOutcome : Except Str (List AuctionRec))
    (fetchOutcome : List AuctionRec → Except Str (List AuctionRec))
    (fetchDescriptions : Bool)
    (convert : AuctionRec → Except Str AuctionRec)
    (query : Str) : List AuctionRec :=
  match driverOutcome with
  | .error _ => []
  | .ok _ =>
    convertLoop convert [] (searchRun seleniumOutcome fetchOutcome fetchDescriptions query)

/-- The result of one `analyze_auction_page` call as read by
`filter_relevant_auctions`: `is_relevant` may be absent or `None` (both
modelled by `none`), `confidence` defaults to 0 and `reason` to
"No reason provided". -/
structure LlmAnalysis where
  is_relevant : Option Bool := none
  confidence : Rat := 0
  reason : Option Str := none

/-- Warning emitted by `filter_relevant_auctions` when no LLM client is
configured on the adapter. -/
def llmWarnMsg : Str := "No LLM client configured, returning unfiltered auctions".toList

/-- Model of `BaseAuctionAdapter.filter_relevant_auctions`.  The LLM call on
the serialized record is the oracle `analyze`; `none` for `llmClient` models
an adapter whose `llm_client` attribute is falsy.  The result pairs the
returned record list with the warnings logged. -/
def filterRelevantAuctions
    (llmClient : Option (AuctionRec → Str → Str → LlmAnalysis))
    (auctions : List AuctionRec) (query location : Str)
    (confidence_threshold : Rat) : List AuctionRec × List Str :=
  match llmClient with
  | none => (auctions, [llmWarnMsg])
  | some analyze =>
    (auctions.filterMap (fun a =>
      let analysis := analyze a query location
      let a2 := { a with relevance := some {
        is_relevant := analysis.is_relevant
        confidence := analysis.confidence
        reason := analysis.reason.getD "No reason provided".toList } }
      if analysis.is_relevant == some true
          && decide (confidence_threshold ≤ analysis.confidence)
      then some a2 else none), [])

/-!
The normalized record model, from src/models/auction.py.  Input and output
dictionaries are association lists over Python-like values.
-/

/-- Python values as far as `Auction.from_dict` and `to_dict` inspect them:
`vother` stands for any value the code never looks inside. -/
inductive PyVal where
  | vnone
  | vstr (s : Str)
  | vlist (l : List PyVal)
  | vdict (entries : List (Str × PyVal))
  | vother (n : Nat)

abbrev PyDict := List (Str × PyVal)

/-- Python truthiness for the values above. -/
def PyVal.truthy : PyVal → Bool
  | .vnone => false
  | .vstr s => !s.isEmpty
  | .vlist l => !l.isEmpty
  | .vdict d => !d.isEmpty
  | .vother _ => true

def PyVal.isList : PyVal → Bool
  | .vlist _ => true
  | _ => false

/-- Dict read: the value under key `k`, if present. -/
def pyGet (d : PyDict) (k : Str) : Option PyVal :=
  (d.find? (fun kv => kv.1 == k)).map (fun kv => kv.2)

/-- Key membership of a dict. -/
def keyMem (k : Str) (d : PyDict) : Bool := d.any (fun kv => kv.1 == k)

/-- Dict write: replace in place when the key exists (Python dicts keep the
original position), append otherwise. -/
def setKey (d : PyDict) (k : Str) (v : PyVal) : PyDict :=
  if keyMem k d then d.map (fun kv => if kv.1 == k then (kv.1, v) else kv)
  else d ++ [(k, v)]

/-- Dict delete (`pop`). -/
def delKey (d : PyDict) (k : Str) : PyDict := d.filter (fun kv => !(kv.1 == k))

/-- The annotated fields of the `Auction` dataclass (`cls.__annotations__`),
in declaration order. -/
def annotationKeys : List Str :=
  ["title", "url", "auction_title", "auction_url", "description", "evaluation",
   "minimum_bid", "current_bid", "next_session", "closing_at", "status",
   "images", "source", "location", "relevance", "metadata",
   "created_at"].map String.toList

/-- The `Auction` dataclass.  `created_at` is kept as an opaque value; its
`isoformat` serialisation in `to_dict` is modelled as the value itself. -/
structure Auction where
  title : PyVal
  url : PyVal
  auction_title : PyVal := .vstr []
  auction_url : PyVal := .vstr []
  description : PyVal := .vstr []
  evaluation : PyVal := .vnone
  minimum_bid : PyVal := .vnone
  current_bid : PyVal := .vnone
  next_session : PyVal := .vnone
  closing_at : PyVal := .vnone
  status : PyVal := .vnone
  images : PyVal := .vlist []
  source : PyVal := .vstr []
  location : PyVal := .vnone
  relevance : PyVal := .vdict []
  metadata : PyDict := []
  created_at : PyVal := .vnone

/-- Model of `Auction.from_dict`.  The first sweep moves every key that is
not an annotated field (and is not `images`, a redundant test since `images`
is annotated) into `metadata`; then a non-list `images` value is normalised;
then the `image_url` block runs (on the already swept dict); finally the
dataclass is constructed, which requires `title` and `url` (a missing one
raises `TypeError`, modelled by `none`) and overwrites any `metadata` entry
of the input with the swept mapping.  `now` models the `datetime.now()`
default for `created_at`. -/
def Auction.fromDict (d : PyDict) (now : PyVal) : Option Auction :=
  let metadata := d.filter (fun kv =>
    !(annotationKeys.contains kv.1) && !(kv.1 == "images".toList))
  let ad := d.filter (fun kv =>
    annotationKeys.contains kv.1 || kv.1 == "images".toList)
  let ad := match pyGet ad "images".toList with
    | some v =>
      if v.isList then ad
      else match v with
        | .vnone => setKey ad "images".toList (.vlist [])
        | w => setKey ad "images".toList (.vlist [w])
    | none => ad
  let ad := match pyGet ad "image_url".toList with
    | some v =>
      if v.truthy then
        let ad2 := match pyGet ad "images".toList with
          | some iv =>
            if iv.truthy then
              match iv with
              | .vlist l => setKey ad "images".toList (.vlist (l ++ [v]))
              | _ => ad
            else setKey ad "images".toList (.vlist [v])
          | none => setKey ad "images".toList (.vlist [v])
        delKey ad2 "image_url".toList
      else ad
    | none => ad
  match pyGet ad "title".toList, pyGet ad "url".toList with
  | some t, some u => some
    { title := t
      url := u
      auction_title := (pyGet ad "auction_title".toList).getD (.vstr [])
      auction_url := (pyGet ad "auction_url".toList).getD (.vstr [])
      description := (pyGet ad "description".toList).getD (.vstr [])
      evaluation := (pyGet ad "evaluation".toList).getD .vnone
      minimum_bid := (pyGet ad "minimum_bid".toList).getD .vnone
      current_bid := (pyGet ad "current_bid".toList).getD .vnone
      next_session := (pyGet ad "next_session".toList).getD .vnone
      closing_at := (pyGet ad "closing_at".toList).getD .vnone
      status := (pyGet ad "status".toList).getD .vnone
      images := (pyGet ad "images".toList).getD (.vlist [])
      source := (pyGet ad "source".toList).getD (.vstr [])
      location := (pyGet ad "location".toList).getD .vnone
      relevance := (pyGet ad "relevance".toList).getD (.vdict [])
      metadata := metadata
      created_at := (pyGet ad "created_at".toList).getD now }
  | _, _ => none

/-- The fixed part of the `to_dict` result, in the order the code writes the
keys.  `metadata` is not among these keys. -/
def Auction.fixedPart (a : Auction) : PyDict :=
  [("title".toList, a.title), ("url".toList, a.url),
   ("auction_title".toList, a.auction_title), ("auction_url".toList, a.auction_url),
   ("description".toList, a.description), ("evaluation".toList, a.evaluation),
   ("minimum_bid".toList, a.minimum_bid), ("current_bid".toList, a.current_bid),
   ("next_session".toList, a.next_session), ("closing_at".toList, a.closing_at),
   ("status".toList, a.status), ("images".toList, a.images),
   ("source".toList, a.source), ("location".toList, a.location),
   ("relevance".toList, a.relevance), ("created_at".toList, a.created_at)]

/-- The metadata loop of `to_dict`: each metadata entry is added only when
its key is not already a key of the result built so far. -/
def inlineMetadata (result : PyDict) : PyDict → PyDict
  | [] => result
  | kv :: rest =>
    if keyMem kv.1 result then inlineMetadata result rest
    else inlineMetadata (result ++ [kv]) rest

/-- Model of `Auction.to_dict`. -/
def Auction.toDict (a : Auction) : PyDict := inlineMetadata a.fixedPart a.metadata

/-- Sample records for concrete checks. -/
def recA : AuctionRec := { url := some "https://example.com/lote/1".toList, title := some "Lote A".toList }

def recB : AuctionRec := { url := some "https://example.com/lote/2".toList, title := some "Lote B".toList }

def recA2 : AuctionRec := { url := some "https://example.com/lote/1".toList, title := some "Lote A bis".toList }

def recEmptyUrl : AuctionRec := { url := some [], title := some "no url text".toList }

def recNoUrl : AuctionRec := { title := some "missing url".toList }

/-!
Properties of query expansion.
-/

/-- Case-insensitive membership, i.e. membership up to Python `lower`. -/
def ciMem (s : Str) (l : List Str) : Prop := ∃ v ∈ l, pyLowerS v = pyLowerS s

/-- The claim's notion of a known-location match, from the spec's words: an
exact, case-insensitive match of the query against a known location's
canonical id, name, or any alias. -/
abbrev exactKnownLocationMatch (ql : Str) : Prop :=
  ∃ p ∈ LOCATIONS, ql = p.1 ∨ ql = pyLowerS p.2.name ∨ ql ∈ p.2.aliases.map pyLowerS

/-- A concrete record whose title matches the query "itapiruba". -/
def recItap : AuctionRec :=
  { url := some "https://example.com/lote/1".toList
    title := some "Lote em Itapiruba".toList }

/-- The fallback detail URL configured for itapiruba. -/
def itapirubaFallbackUrl : Str :=
  "https://www.centralsuldeleiloes.com.br/leilao/9867/lote/235407/imovel-com-area-de-375-00m2-no-loteamento-balneario-itapiruba-no-municipio-de-laguna-sc".toList

/-- A record dict with a non-empty `image_url` and no `images` entry. -/
def imageUrlInput : PyDict :=
  [("title".toList, PyVal.vstr "t".toList), ("url".toList, PyVal.vstr "u".toList),
   ("image_url".toList, PyVal.vstr "http://img".toList)]

/-- A record dict whose `images` entry is null. -/
def imagesNullInput : PyDict :=
  [("title".toList, PyVal.vstr "t".toList), ("url".toList, PyVal.vstr "u".toList),
   ("images".toList, PyVal.vnone)]

/-!
Properties of `to_dict`.
-/

/-- The keys of the fixed part of the `to_dict` result. -/
def fixedKeys : List Str :=
  ["title", "url", "auction_title", "auction_url", "description", "evaluation",
   "minimum_bid", "current_bid", "next_session", "closing_at", "status",
   "images", "source", "location", "relevance", "created_at"].map String.toList

/-- An `Auction` whose metadata mapping itself contains the key 'metadata'. -/
def metaCollisionAuction : Auction :=
  { title := PyVal.vstr []
    url := PyVal.vstr []
    metadata := [("metadata".toList, PyVal.vnone)] }

/-- An `Auction` with an ordinary metadata entry. -/
def plainMetaAuction : Auction :=
  { title := PyVal.vstr []
    url := PyVal.vstr []
    metadata := [("foo".toList, PyVal.vnone)] }

theorem lookup_mem {α β : Type} [BEq α] [LawfulBEq α] (l : List (α × β)) (a : α) (b : β)
    (h : l.lookup a = some b) : (a, b) ∈ l := by
  induction l with
  | nil => simp [List.lookup] at h
  | cons p rest ih =>
    obtain ⟨x, y⟩ := p
    by_cases hab : a == x
    · have hax : a = x := eq_of_beq hab
      simp [List.lookup, hab] at h
      subst hax
      subst h
      exact List.mem_cons_self _ _
    · simp [List.lookup, hab] at h
      exact List.mem_cons_of_mem _ (ih h)

theorem pyLowerChar_idem (c : Char) : pyLowerChar (pyLowerChar c) = pyLowerChar c := by
  cases h : lowerPairs.lookup c with
  | none => simp [pyLowerChar, h]
  | some d =>
    have hmem : (c, d) ∈ lowerPairs := lookup_mem _ _ _ h
    have hall : ∀ p ∈ lowerPairs, pyLowerChar p.2 = p.2 := by decide
    simp only [pyLowerChar, h, Option.getD_some]
    exact hall (c, d) hmem

theorem pyLowerChar_removeAccentChar (c : Char) (h : pyLowerChar c = c) :
    pyLowerChar (removeAccentChar c) = removeAccentChar c := by
  cases ha : accentPairs.lookup c with
  | none => simpa [removeAccentChar, ha] using h
  | some d =>
    have hmem : (c, d) ∈ accentPairs := lookup_mem _ _ _ ha
    have hall : ∀ p ∈ accentPairs, pyLowerChar p.1 = p.1 → pyLowerChar p.2 = p.2 := by decide
    simp only [removeAccentChar, ha, Option.getD_some]
    exact hall (c, d) hmem h

theorem map_fixed {α : Type} (f : α → α) (l : List α) (h : ∀ a ∈ l, f a = a) :
    l.map f = l := by
  induction l with
  | nil => rfl
  | cons a rest ih =>
    simp only [List.map_cons, h a (List.mem_cons_self a rest)]
    rw [ih (fun b hb => h b (List.mem_cons_of_mem a hb))]

theorem pyLowerS_idem (s : Str) : pyLowerS (pyLowerS s) = pyLowerS s := by
  unfold pyLowerS
  rw [List.map_map]
  exact List.map_congr_left (fun c _ => pyLowerChar_idem c)

theorem mem_pyStrip {c : Char} {s : Str} (h : c ∈ pyStrip s) : c ∈ s := by
  unfold pyStrip at h
  rw [List.mem_reverse] at h
  have h1 := (List.dropWhile_sublist Char.isWhitespace).subset h
  rw [List.mem_reverse] at h1
  exact (List.dropWhile_sublist Char.isWhitespace).subset h1

theorem normalizeQ_chars_fixed {c : Char} {q : Str} (h : c ∈ normalizeQ q) :
    pyLowerChar c = c := by
  have h1 : c ∈ pyLowerS q := mem_pyStrip h
  obtain ⟨d, _, rfl⟩ := List.mem_map.mp h1
  exact pyLowerChar_idem d

theorem normalizeQ_fixed (q : Str) : pyLowerS (normalizeQ q) = normalizeQ q :=
  map_fixed _ _ (fun _ hc => normalizeQ_chars_fixed hc)

theorem removeAccents_normalizeQ_fixed (q : Str) :
    pyLowerS (removeAccents (normalizeQ q)) = removeAccents (normalizeQ q) := by
  refine map_fixed _ _ (fun c hc => ?_)
  have h1 : c ∈ (normalizeQ q).map removeAccentChar := (List.mem_filter.mp hc).1
  obtain ⟨d, hd, rfl⟩ := List.mem_map.mp h1
  exact pyLowerChar_removeAccentChar d (normalizeQ_chars_fixed hd)

theorem uniqueVars_append_tail (vs : List Str) :
    ∀ acc, ∃ t, uniqueVars acc vs = acc ++ t ∧ List.Sublist t (vs.map pyLowerS) := by
  induction vs with
  | nil => exact fun acc => ⟨[], by simp [uniqueVars]⟩
  | cons v vs ih =>
    intro acc
    by_cases hm : pyLowerS v ∈ acc
    · obtain ⟨t, ht, hs⟩ := ih acc
      exact ⟨t, by simpa [uniqueVars, hm] using ht, hs.cons _⟩
    · obtain ⟨t, ht, hs⟩ := ih (acc ++ [pyLowerS v])
      refine ⟨pyLowerS v :: t, ?_, hs.cons₂ _⟩
      simpa [uniqueVars, hm] using ht

theorem mem_of_mem_acc_uniqueVars (vs : List Str) (acc : List Str) (a : Str)
    (h : a ∈ acc) : a ∈ uniqueVars acc vs := by
  obtain ⟨t, ht, _⟩ := uniqueVars_append_tail vs acc
  rw [ht]
  exact List.mem_append_left _ h

theorem mem_uniqueVars_of_mem (vs : List Str) :
    ∀ acc v, v ∈ vs → pyLowerS v ∈ uniqueVars acc vs := by
  induction vs with
  | nil => intro _ _ h; cases h
  | cons w ws ih =>
    intro acc v hv
    by_cases hm : pyLowerS w ∈ acc
    · rcases List.mem_cons.mp hv with rfl | hv
      · simpa [uniqueVars, hm] using mem_of_mem_acc_uniqueVars ws acc _ hm
      · simpa [uniqueVars, hm] using ih acc v hv
    · rcases List.mem_cons.mp hv with rfl | hv
      · have : pyLowerS v ∈ acc ++ [pyLowerS v] := List.mem_append_right _ (by simp)
        simpa [uniqueVars, hm] using mem_of_mem_acc_uniqueVars ws _ _ this
      · simpa [uniqueVars, hm] using ih (acc ++ [pyLowerS w]) v hv

theorem uniqueVars_all_lowered (vs : List Str) :
    ∀ acc, (∀ a ∈ acc, pyLowerS a = a) → ∀ a ∈ uniqueVars acc vs, pyLowerS a = a := by
  induction vs with
  | nil => intro acc hacc; simpa [uniqueVars] using hacc
  | cons w ws ih =>
    intro acc hacc a ha
    by_cases hm : pyLowerS w ∈ acc
    · rw [uniqueVars] at ha
      simp only [hm, if_pos] at ha
      exact ih acc hacc a ha
    · rw [uniqueVars] at ha
      simp only [hm, if_neg, not_false_iff] at ha
      refine ih (acc ++ [pyLowerS w]) ?_ a ha
      intro b hb
      rcases List.mem_append.mp hb with hb | hb
      · exact hacc b hb
      · rw [List.mem_singleton.mp hb]
        exact pyLowerS_idem w

theorem uniqueVars_nodup (vs : List Str) :
    ∀ acc, acc.Nodup → (uniqueVars acc vs).Nodup := by
  induction vs with
  | nil => intro acc h; simpa [uniqueVars] using h
  | cons w ws ih =>
    intro acc hacc
    by_cases hm : pyLowerS w ∈ acc
    · rw [uniqueVars]; simp only [hm, if_pos]
      exact ih acc hacc
    · rw [uniqueVars]; simp only [hm, if_neg, not_false_iff]
      refine ih (acc ++ [pyLowerS w]) ?_
      rw [List.nodup_append]
      exact ⟨hacc, List.nodup_singleton _, by simpa using fun h => hm h⟩

/-!
Properties of deduplication.
-/

theorem dedupGo_mem (xs : List AuctionRec) :
    ∀ seen, ∀ r ∈ dedupGo seen xs, ∃ u, r.url = some u ∧ u ≠ [] ∧ u ∉ seen := by
  induction xs with
  | nil => intro seen r hr; simp [dedupGo] at hr
  | cons a rest ih =>
    intro seen r hr
    cases hu : a.url with
    | none =>
      simp only [dedupGo, hu] at hr
      exact ih seen r hr
    | some u =>
      simp only [dedupGo, hu] at hr
      by_cases hc : u ≠ [] ∧ u ∉ seen
      · rw [if_pos hc] at hr
        rcases List.mem_cons.mp hr with rfl | hr
        · exact ⟨u, hu, hc.1, hc.2⟩
        · obtain ⟨w, hw, hwne, hwseen⟩ := ih (seen ++ [u]) r hr
          exact ⟨w, hw, hwne, fun hmem => hwseen (List.mem_append_left _ hmem)⟩
      · rw [if_neg hc] at hr
        exact ih seen r hr

theorem dedupGo_sublist (xs : List AuctionRec) :
    ∀ seen, List.Sublist (dedupGo seen xs) xs := by
  induction xs with
  | nil => intro seen; simp [dedupGo]
  | cons a rest ih =>
    intro seen
    cases hu : a.url with
    | none =>
      simp only [dedupGo, hu]
      exact (ih seen).cons a
    | some u =>
      simp only [dedupGo, hu]
      by_cases hc : u ≠ [] ∧ u ∉ seen
      · rw [if_pos hc]
        exact (ih (seen ++ [u])).cons₂ a
      · rw [if_neg hc]
        exact (ih seen).cons a

theorem dedupGo_urls_nodup (xs : List AuctionRec) :
    ∀ seen, ((dedupGo seen xs).map AuctionRec.url).Nodup := by
  induction xs with
  | nil => intro seen; simp [dedupGo]
  | cons a rest ih =>
    intro seen
    cases hu : a.url with
    | none =>
      simp only [dedupGo, hu]
      exact ih seen
    | some u =>
      simp only [dedupGo, hu]
      by_cases hc : u ≠ [] ∧ u ∉ seen
      · rw [if_pos hc]
        rw [List.map_cons, List.nodup_cons]
        refine ⟨?_, ih (seen ++ [u])⟩
        intro hmem
        obtain ⟨r, hr, hru⟩ := List.mem_map.mp hmem
        obtain ⟨w, hw, _, hwseen⟩ := dedupGo_mem rest (seen ++ [u]) r hr
        rw [hu, hw] at hru
        have hwu : w = u := by injection hru
        exact hwseen (hwu ▸ List.mem_append_right _ (by simp))
      · rw [if_neg hc]
        exact ih seen

theorem dedupGo_first_seen (xs : List AuctionRec) :
    ∀ seen, ∀ r ∈ dedupGo seen xs, ∀ u, r.url = some u →
      xs.find? (fun x => decide (x.url = some u)) = some r := by
  induction xs with
  | nil => intro seen r hr; simp [dedupGo] at hr
  | cons a rest ih =>
    intro seen r hr u hru
    cases ha : a.url with
    | none =>
      simp only [dedupGo, ha] at hr
      rw [List.find?_cons_of_neg _ (by simp [ha])]
      exact ih seen r hr u hru
    | some v =>
      simp only [dedupGo, ha] at hr
      by_cases hc : v ≠ [] ∧ v ∉ seen
      · rw [if_pos hc] at hr
        rcases List.mem_cons.mp hr with rfl | hr
        · have hv : v = u := by rw [hru] at ha; injection ha with h2; exact h2.symm
          subst hv
          exact List.find?_cons_of_pos _ (by simp [ha])
        · obtain ⟨w, hw, _, hwseen⟩ := dedupGo_mem rest (seen ++ [v]) r hr
          have hwu : w = u := by rw [hru] at hw; injection hw with h2; exact h2.symm
          subst hwu
          have hvu : v ≠ w := fun h => hwseen (h ▸ List.mem_append_right _ (by simp))
          rw [List.find?_cons_of_neg _ (by simp [ha, hvu])]
          exact ih (seen ++ [v]) r hr w hru
      · rw [if_neg hc] at hr
        obtain ⟨w, hw, hwne, hwseen⟩ := dedupGo_mem rest seen r hr
        have hwu : w = u := by rw [hru] at hw; injection hw with h2; exact h2.symm
        subst hwu
        have hvu : v ≠ w := by
          intro h
          subst h
          exact hc ⟨hwne, hwseen⟩
        rw [List.find?_cons_of_neg _ (by simp [ha, hvu])]
        exact ih seen r hr w hru

theorem dedupGo_noop (ys : List AuctionRec) :
    ∀ seen, (∀ r ∈ ys, ∃ u, r.url = some u ∧ u ≠ [] ∧ u ∉ seen) →
      (ys.map AuctionRec.url).Nodup → dedupGo seen ys = ys := by
  induction ys with
  | nil => intro seen _ _; rfl
  | cons a rest ih =>
    intro seen hmem hnd
    obtain ⟨u, hu, hune, huseen⟩ := hmem a (List.mem_cons_self a rest)
    simp only [dedupGo, hu]
    rw [if_pos ⟨hune, huseen⟩]
    rw [List.map_cons, List.nodup_cons] at hnd
    refine congrArg (a :: ·) (ih (seen ++ [u]) ?_ hnd.2)
    intro r hr
    obtain ⟨w, hw, hwne, hwseen⟩ := hmem r (List.mem_cons_of_mem a hr)
    refine ⟨w, hw, hwne, ?_⟩
    intro hmem2
    rcases List.mem_append.mp hmem2 with h | h
    · exact hwseen h
    · rw [List.mem_singleton.mp h] at hw
      exact hnd.1 (hu ▸ List.mem_map.mpr ⟨r, hr, hw⟩)

/-- C1.  Deduplication, both the per-source `_deduplicate_auctions` and the
top-level loop of `lambda_handler`, keeps at most one record per distinct
`url` (the output urls are pairwise distinct), keeps the first-seen record
for each url (the kept record is what `find?` on the input returns for its
url), preserves first-seen order (the output is a sublist of the input), and
drops every record whose `url` is missing or empty. -/
theorem deduplicate_auctions_spec (xs : List AuctionRec) :
    (∀ r ∈ deduplicate_auctions xs, ∃ u, r.url = some u ∧ u ≠ []) ∧
    ((deduplicate_auctions xs).map AuctionRec.url).Nodup ∧
    List.Sublist (deduplicate_auctions xs) xs ∧
    (∀ r ∈ deduplicate_auctions xs, ∀ u, r.url = some u →
      xs.find? (fun x => decide (x.url = some u)) = some r) ∧
    lambdaHandlerDedup xs = deduplicate_auctions xs := by
  refine ⟨?_, dedupGo_urls_nodup xs [], dedupGo_sublist xs [],
    dedupGo_first_seen xs [], rfl⟩
  intro r hr
  obtain ⟨u, hu, hune, _⟩ := dedupGo_mem xs [] r hr
  exact ⟨u, hu, hune⟩

/-- Witness for C1 at a concrete input: the duplicate of url 1 is resolved
to the first-seen record `recA`, and the records with empty or missing url
are dropped. -/
theorem deduplicate_auctions_spec_witness :
    ([recA, recB, recA2, recEmptyUrl, recNoUrl].find?
      (fun x => decide (x.url = some "https://example.com/lote/1".toList)) = some recA) ∧
    deduplicate_auctions [recA, recB, recA2, recEmptyUrl, recNoUrl] = [recA, recB] :=
  ⟨(deduplicate_auctions_spec [recA, recB, recA2, recEmptyUrl, recNoUrl]).2.2.2.1
      recA (by decide) ("https://example.com/lote/1".toList) (by decide),
    by decide⟩

/-- C7.  Deduplication is idempotent and never increases the length. -/
theorem deduplicate_auctions_idem_len (xs : List AuctionRec) :
    deduplicate_auctions (deduplicate_auctions xs) = deduplicate_auctions xs ∧
    (deduplicate_auctions xs).length ≤ xs.length := by
  constructor
  · refine dedupGo_noop (deduplicate_auctions xs) [] ?_ (dedupGo_urls_nodup xs [])
    intro r hr
    obtain ⟨u, hu, hune, _⟩ := dedupGo_mem xs [] r hr
    exact ⟨u, hu, hune, by simp⟩
  · exact (dedupGo_sublist xs []).length_le

/-!
Properties of the keyword relevance filter.
-/

theorem auctionText_set_reason (a : AuctionRec) (x : Option Str) :
    auctionText { a with match_reason := x } = auctionText a := rfl

theorem filterMap_sublist_map {α β : Type} (f : α → Option β) (g : α → β)
    (hfg : ∀ a b, f a = some b → b = g a) (l : List α) :
    List.Sublist (l.filterMap f) (l.map g) := by
  induction l with
  | nil => simp
  | cons a rest ih =>
    rw [List.map_cons, List.filterMap_cons]
    cases hfa : f a with
    | none => exact ih.cons (g a)
    | some b => rw [hfg a b hfa]; exact ih.cons₂ (g a)

/-- Counterexample to C2 as stated: for the degenerate query "" (reachable
through the handler event field `query`), the expansion contains the empty
variation first, followed by the itapiruba entries found through partial
matching.  The record's combined text contains the variation "itapiruba" as
a substring, yet the record is dropped: the first variation contained in
its text is the empty string, which is falsy, so the `if matched_variation:`
gate rejects it. -/
theorem filter_auctions_truthiness_counterexample :
    "itapiruba".toList ∈ generateQueryVariations [] ∧
    substr "itapiruba".toList (auctionText recItap) = true ∧
    filter_auctions [recItap] [] = [] :=
  ⟨by decide, by decide, by decide⟩

/-- C2 as amended.  For every query whose expansion contains no empty
variation (an empty variation arises only from degenerate queries such as
"" or "//"), `_filter_auctions` returns exactly the records whose combined
lowered text (title, description, parent auction title) contains one of the
query variations as a substring: every output record carries as
`match_reason` the first variation contained in its text; every output
record's text contains some variation; every input record whose text
contains some variation appears in the output (annotated); and the output
lists the annotated matching records in input order. -/
theorem filter_auctions_spec (rs : List AuctionRec) (q : Str)
    (hne : [] ∉ generateQueryVariations q) :
    (∀ b ∈ filter_auctions rs q,
        ∃ v, matchedVariation (generateQueryVariations q) b = some v ∧
          b.match_reason = some ("Matched term: ".toList ++ v)) ∧
    (∀ b ∈ filter_auctions rs q,
        ∃ v ∈ generateQueryVariations q, substr v (auctionText b) = true) ∧
    (∀ a ∈ rs, (∃ v ∈ generateQueryVariations q, substr v (auctionText a) = true) →
        annotateFirst (generateQueryVariations q) a ∈ filter_auctions rs q) ∧
    List.Sublist (filter_auctions rs q)
      (rs.map (annotateFirst (generateQueryVariations q))) := by
  refine ⟨?_, ?_, ?_, ?_⟩
  · intro b hb
    obtain ⟨a, _, hfa⟩ := List.mem_filterMap.mp hb
    cases hma : matchedVariation (generateQueryVariations q) a with
    | none => rw [hma] at hfa; cases hfa
    | some v =>
      rw [hma] at hfa
      dsimp only at hfa
      cases hv : v.isEmpty with
      | true =>
        rw [hv, if_pos rfl] at hfa
        cases hfa
      | false =>
        rw [hv, if_neg Bool.false_ne_true] at hfa
        refine ⟨v, ?_, ?_⟩
        · injection hfa with h2
          rw [← h2]
          show matchedVariation _ { a with match_reason := _ } = some v
          unfold matchedVariation
          rw [auctionText_set_reason]
          exact hma
        · injection hfa with h2
          rw [← h2]
  · intro b hb
    obtain ⟨a, _, hfa⟩ := List.mem_filterMap.mp hb
    cases hma : matchedVariation (generateQueryVariations q) a with
    | none => rw [hma] at hfa; cases hfa
    | some v =>
      rw [hma] at hfa
      dsimp only at hfa
      cases hv : v.isEmpty with
      | true =>
        rw [hv, if_pos rfl] at hfa
        cases hfa
      | false =>
        rw [hv, if_neg Bool.false_ne_true] at hfa
        injection hfa with h2
        have hsub := List.find?_some hma
        refine ⟨v, List.mem_of_find?_eq_some hma, ?_⟩
        rw [← h2, auctionText_set_reason]
        exact hsub
  · intro a ha hex
    obtain ⟨v, hv, hsub⟩ := hex
    have hsome : (matchedVariation (generateQueryVariations q) a).isSome := by
      rw [matchedVariation, List.find?_isSome]
      exact ⟨v, hv, hsub⟩
    obtain ⟨w, hw⟩ := Option.isSome_iff_exists.mp hsome
    have hwe : w.isEmpty = false := by
      cases w with
      | nil => exact absurd (List.mem_of_find?_eq_some hw) hne
      | cons c cs => rfl
    refine List.mem_filterMap.mpr ⟨a, ha, ?_⟩
    rw [hw]
    dsimp only
    rw [hwe, if_neg Bool.false_ne_true]
    unfold annotateFirst
    rw [hw]
  · refine filterMap_sublist_map _ _ ?_ rs
    intro a b hfa
    unfold annotateFirst
    cases hma : matchedVariation (generateQueryVariations q) a with
    | none => rw [hma] at hfa; cases hfa
    | some v =>
      rw [hma] at hfa
      dsimp only at hfa
      cases hv : v.isEmpty with
      | true =>
        rw [hv, if_pos rfl] at hfa
        cases hfa
      | false =>
        rw [hv, if_neg Bool.false_ne_true] at hfa
        injection hfa with h2
        exact h2.symm

/-- Witness for the amended C2 at a concrete input and query with no empty
variation: the matching record is retained and annotated with the first
matching variation, and a non-matching record is dropped. -/
theorem filter_auctions_spec_witness :
    annotateFirst (generateQueryVariations "itapiruba".toList)
      { recA with title := some "Lote em Itapiruba".toList } ∈
      filter_auctions [{ recA with title := some "Lote em Itapiruba".toList }, recB]
        ("itapiruba".toList) ∧
    filter_auctions [{ recA with title := some "Lote em Itapiruba".toList }, recB]
        ("itapiruba".toList) =
      [{ recA with
          title := some "Lote em Itapiruba".toList
          match_reason := some "Matched term: itapiruba".toList }] :=
  ⟨(filter_auctions_spec [{ recA with title := some "Lote em Itapiruba".toList }, recB]
      ("itapiruba".toList) (by decide)).2.2.1 _ (by decide)
      ⟨"itapiruba".toList, by decide, by decide⟩,
    by decide⟩

theorem rawVariations_cons (ql : Str) : ∃ t, rawVariations ql = ql :: t := by
  unfold rawVariations
  cases getLocationConfig ql with
  | some cfg => exact ⟨_, rfl⟩
  | none =>
    dsimp only
    by_cases hne : removeAccents ql ≠ ql
    · rw [if_pos hne]
      by_cases hs : ql.contains '/'
      · rw [if_pos hs]; exact ⟨_, rfl⟩
      · rw [if_neg hs]
        cases LOCATIONS.find? (fun p => p.2.aliases.contains ql || substr ql p.1) with
        | some p => exact ⟨_, rfl⟩
        | none => exact ⟨_, rfl⟩
    · rw [if_neg hne]
      by_cases hs : ql.contains '/'
      · rw [if_pos hs]; exact ⟨_, rfl⟩
      · rw [if_neg hs]
        cases LOCATIONS.find? (fun p => p.2.aliases.contains ql || substr ql p.1) with
        | some p => exact ⟨_, rfl⟩
        | none => exact ⟨_, rfl⟩

theorem generateQueryVariations_head (q : Str) :
    (generateQueryVariations q).head? = some (normalizeQ q) := by
  obtain ⟨t, ht⟩ := rawVariations_cons (normalizeQ q)
  rw [generateQueryVariations, ht]
  have h0 : uniqueVars [] (normalizeQ q :: t) = uniqueVars [pyLowerS (normalizeQ q)] t := by
    simp [uniqueVars]
  rw [h0]
  obtain ⟨t2, ht2, _⟩ := uniqueVars_append_tail t [pyLowerS (normalizeQ q)]
  rw [ht2]
  simp [normalizeQ_fixed]

theorem generateQueryVariations_ci_nodup (q : Str) :
    ((generateQueryVariations q).map pyLowerS).Nodup := by
  have hfix : ∀ a ∈ generateQueryVariations q, pyLowerS a = a :=
    uniqueVars_all_lowered _ [] (by simp)
  rw [map_fixed _ _ hfix]
  exact uniqueVars_nodup _ [] List.nodup_nil

theorem generateQueryVariations_sublist (q : Str) :
    List.Sublist (generateQueryVariations q)
      ((rawVariations (normalizeQ q)).map pyLowerS) := by
  obtain ⟨t, ht, hs⟩ := uniqueVars_append_tail (rawVariations (normalizeQ q)) []
  rw [generateQueryVariations, ht]
  simpa using hs

theorem generateQueryVariations_known_ciMem (q : Str) (cfg : LocationConfig)
    (hcfg : getLocationConfig (normalizeQ q) = some cfg) :
    ciMem cfg.name (generateQueryVariations q) ∧
    (∀ a ∈ cfg.aliases, ciMem a (generateQueryVariations q)) ∧
    ciMem (pyLowerS cfg.name ++ '/' :: pyLowerS cfg.state) (generateQueryVariations q) := by
  have hraw : rawVariations (normalizeQ q) =
      [normalizeQ q] ++ [pyLowerS cfg.name] ++ cfg.aliases.map pyLowerS
        ++ [pyLowerS cfg.name ++ '/' :: pyLowerS cfg.state] := by
    unfold rawVariations
    rw [hcfg]
  refine ⟨?_, ?_, ?_⟩
  · refine ⟨pyLowerS (pyLowerS cfg.name), ?_, by rw [pyLowerS_idem, pyLowerS_idem]⟩
    refine mem_uniqueVars_of_mem _ [] _ ?_
    rw [hraw]
    simp
  · intro a ha
    refine ⟨pyLowerS (pyLowerS a), ?_, by rw [pyLowerS_idem, pyLowerS_idem]⟩
    refine mem_uniqueVars_of_mem _ [] _ ?_
    rw [hraw]
    have hmm2 : pyLowerS a ∈ cfg.aliases.map pyLowerS := List.mem_map.mpr ⟨a, ha, rfl⟩
    simp [hmm2]
  · refine ⟨pyLowerS (pyLowerS cfg.name ++ '/' :: pyLowerS cfg.state), ?_, by rw [pyLowerS_idem]⟩
    refine mem_uniqueVars_of_mem _ [] _ ?_
    rw [hraw]
    simp

theorem getLocationConfig_itapiruba_matches :
    ∀ s ∈ "itapiruba".toList :: pyLowerS itapirubaCfg.name :: itapirubaCfg.aliases.map pyLowerS,
      getLocationConfig s = some itapirubaCfg := by decide

theorem getLocationConfig_florianopolis_matches :
    ∀ s ∈ "florianopolis".toList :: pyLowerS florianopolisCfg.name :: florianopolisCfg.aliases.map pyLowerS,
      getLocationConfig s = some florianopolisCfg := by decide

theorem getLocationConfig_balneario_matches :
    ∀ s ∈ "balneario-camboriu".toList :: pyLowerS balnearioCamboriuCfg.name :: balnearioCamboriuCfg.aliases.map pyLowerS,
      getLocationConfig s = some balnearioCamboriuCfg := by decide

theorem getLocationConfig_saopaulo_matches :
    ∀ s ∈ "sao-paulo".toList :: pyLowerS saoPauloCfg.name :: saoPauloCfg.aliases.map pyLowerS,
      getLocationConfig s = some saoPauloCfg := by decide

theorem getLocationConfig_riodejaneiro_matches :
    ∀ s ∈ "rio-de-janeiro".toList :: pyLowerS rioDeJaneiroCfg.name :: rioDeJaneiroCfg.aliases.map pyLowerS,
      getLocationConfig s = some rioDeJaneiroCfg := by decide

/-- C5.  For a query that matches a known location's id, name or alias
exactly (case-insensitively), the generated variation sequence contains,
case-insensitively, the canonical name, every alias, and "name/state"; it
begins with the lowered trimmed original query; it has no two entries that
are equal case-insensitively; and it preserves first-seen order (it is a
sublist of the lowered pre-dedup variation list). -/
theorem generate_query_variations_known_location (q : Str) (loc : Str × LocationConfig)
    (hmem : loc ∈ LOCATIONS)
    (hmatch : normalizeQ q = loc.1 ∨ normalizeQ q = pyLowerS loc.2.name ∨
      normalizeQ q ∈ loc.2.aliases.map pyLowerS) :
    ciMem loc.2.name (generateQueryVariations q) ∧
    (∀ a ∈ loc.2.aliases, ciMem a (generateQueryVariations q)) ∧
    ciMem (pyLowerS loc.2.name ++ '/' :: pyLowerS loc.2.state) (generateQueryVariations q) ∧
    (generateQueryVariations q).head? = some (normalizeQ q) ∧
    ((generateQueryVariations q).map pyLowerS).Nodup ∧
    List.Sublist (generateQueryVariations q)
      ((rawVariations (normalizeQ q)).map pyLowerS) := by
  have hql : normalizeQ q ∈ loc.1 :: pyLowerS loc.2.name :: loc.2.aliases.map pyLowerS := by
    simp only [List.mem_cons]
    exact hmatch
  have hcfg : getLocationConfig (normalizeQ q) = some loc.2 := by
    simp only [LOCATIONS, List.mem_cons, List.not_mem_nil, or_false] at hmem
    rcases hmem with rfl | rfl | rfl | rfl | rfl
    · exact getLocationConfig_itapiruba_matches _ hql
    · exact getLocationConfig_florianopolis_matches _ hql
    · exact getLocationConfig_balneario_matches _ hql
    · exact getLocationConfig_saopaulo_matches _ hql
    · exact getLocationConfig_riodejaneiro_matches _ hql
  obtain ⟨h1, h2, h3⟩ := generateQueryVariations_known_ciMem q loc.2 hcfg
  exact ⟨h1, h2, h3, generateQueryVariations_head q,
    generateQueryVariations_ci_nodup q, generateQueryVariations_sublist q⟩

/-- Witness for C5: the query "  FLORIPA " matches the alias "floripa" and
its variation list contains the canonical name case-insensitively. -/
theorem generate_query_variations_known_location_witness :
    ciMem florianopolisCfg.name (generateQueryVariations "  FLORIPA ".toList) :=
  (generate_query_variations_known_location ("  FLORIPA ".toList)
    ("florianopolis".toList, florianopolisCfg) (by decide)
    (Or.inr (Or.inr (by decide)))).1

/-- Counterexample to C6 as stated: the query "itapirubá praia" matches no
known location exactly (case-insensitively), its accent-stripped form
differs from its lowered trimmed form, and yet that accent-stripped form is
not among the generated variations — `get_location_config` finds the
itapiruba entry through its partial (substring) matching phase, so the code
takes the known-location branch and never strips accents. -/
theorem accent_variant_counterexample :
    ¬ exactKnownLocationMatch (normalizeQ "itapirubá praia".toList) ∧
    removeAccents (normalizeQ "itapirubá praia".toList) ≠ normalizeQ "itapirubá praia".toList ∧
    removeAccents (normalizeQ "itapirubá praia".toList) ∉
      generateQueryVariations "itapirubá praia".toList :=
  ⟨by decide, by decide, by decide⟩

/-- C6 as amended: for every query for which `get_location_config` finds no
location at all (neither an exact nor a partial match, so the empty config
is returned), the generated variation list contains the accent-stripped
version of the lowered trimmed query whenever it differs from it. -/
theorem accent_variant_when_no_location (q : Str)
    (hnone : getLocationConfig (normalizeQ q) = none)
    (hne : removeAccents (normalizeQ q) ≠ normalizeQ q) :
    removeAccents (normalizeQ q) ∈ generateQueryVariations q := by
  have hmemraw : removeAccents (normalizeQ q) ∈ rawVariations (normalizeQ q) := by
    unfold rawVariations
    rw [hnone]
    dsimp only
    rw [if_pos hne]
    by_cases hs : (normalizeQ q).contains '/'
    · rw [if_pos hs]; simp
    · rw [if_neg hs]
      cases LOCATIONS.find? (fun p =>
          p.2.aliases.contains (normalizeQ q) || substr (normalizeQ q) p.1) with
      | some p => simp
      | none => simp
  have hmem2 := mem_uniqueVars_of_mem (rawVariations (normalizeQ q)) [] _ hmemraw
  rw [removeAccents_normalizeQ_fixed q] at hmem2
  exact hmem2

/-- Witness for the amended C6: "xávier" matches no location and its
variation list contains the accent-stripped form "xavier". -/
theorem accent_variant_when_no_location_witness :
    removeAccents (normalizeQ "xávier".toList) ∈ generateQueryVariations "xávier".toList :=
  accent_variant_when_no_location "xávier".toList (by decide) (by decide)

/-- C8.  With no LLM client configured the relevance pass is a no-op: the
input list is returned unchanged (so no record is dropped and no record's
`relevance` field changes) and the warning is logged. -/
theorem filter_relevant_auctions_noop (auctions : List AuctionRec)
    (query location : Str) (confidence_threshold : Rat) :
    filterRelevantAuctions none auctions query location confidence_threshold
        = (auctions, [llmWarnMsg]) ∧
    ((filterRelevantAuctions none auctions query location confidence_threshold).1.map
        AuctionRec.relevance) = auctions.map AuctionRec.relevance :=
  ⟨rfl, rfl⟩

/-- Counterexample to C9 as stated: a failure in the enrichment stage
(description fetching) is caught, but the source then contributes the
filtered records — one record here — not zero records. -/
theorem search_enrichment_failure_contributes_records :
    searchRun (Except.ok [recItap]) (fun _ => Except.error "boom".toList) true
      ("itapiruba".toList) ≠ [] := by decide

/-- C9 as amended: no failure in a source's pipeline raises to the caller.
A selenium-stage failure yields zero records; an enrichment-stage failure
yields the records computed so far (the filtered list); a driver failure,
an empty search and a conversion failure each yield an empty (valid, not
erroneous) top-level result instead of an exception. -/
theorem search_failures_are_caught (e1 e2 e3 : Str) (raw : List AuctionRec)
    (query : Str)
    (fetchOutcome : List AuctionRec → Except Str (List AuctionRec))
    (seleniumOutcome : Except Str (List AuctionRec))
    (fetchDescriptions : Bool)
    (convert : AuctionRec → Except Str AuctionRec) :
    searchRun (Except.error e1) fetchOutcome fetchDescriptions query = [] ∧
    searchRun (Except.ok raw) (fun _ => Except.error e2) true query
      = filter_auctions (deduplicate_auctions raw) query ∧
    searchAllSources (Except.error e3) seleniumOutcome fetchOutcome fetchDescriptions
      convert query = [] ∧
    searchAllSources (Except.ok ()) (Except.ok []) fetchOutcome fetchDescriptions
      convert query = [] ∧
    searchAllSources (Except.ok ()) seleniumOutcome fetchOutcome fetchDescriptions
      (fun _ => Except.error e2) query = [] := by
  refine ⟨rfl, ?_, rfl, rfl, ?_⟩
  · simp only [searchRun]
    exact ite_self _
  · simp only [searchAllSources]
    cases searchRun seleniumOutcome fetchOutcome fetchDescriptions query with
    | nil => rfl
    | cons a rest => rfl

/-- C4.  In the fallback scenario — the query "itapiruba" (which has a
configured fallback detail URL), search yielding zero candidate records —
the code does fetch the fallback detail page, but the record built by
`get_auction_details` carries no `url` key, so `_deduplicate_auctions`
drops it and the search returns zero records, not the one record the spec
promises.  This holds for every resolved page content and every
description-fetching configuration. -/
theorem fallback_detail_record_dropped (pageOf : Str → DetailPage)
    (fetchOutcome : List AuctionRec → Except Str (List AuctionRec))
    (fetchDescriptions : Bool) :
    getFallbackAuctionForQuery "itapiruba".toList = some itapirubaFallbackUrl ∧
    seleniumSearch [] pageOf "itapiruba".toList
      = [getAuctionDetails (pageOf itapirubaFallbackUrl)] ∧
    (getAuctionDetails (pageOf itapirubaFallbackUrl)).url = none ∧
    searchRun (Except.ok (seleniumSearch [] pageOf "itapiruba".toList))
      fetchOutcome fetchDescriptions "itapiruba".toList = [] := by
  refine ⟨by decide, rfl, rfl, rfl⟩

/-- C3.  Evaluating `Auction.from_dict` at the failing input: because
`image_url` is not an annotated field, the first sweep moves it into
`metadata` before the dedicated `image_url` handling block runs (that block
is dead code), so the resulting record has `images == []` — not
`[image_url]` — and the `image_url` key survives inside `metadata`.  The
claim's second half does hold: an input with `images: null` yields
`images == []`. -/
theorem from_dict_image_url_goes_to_metadata (now : PyVal) :
    (Auction.fromDict imageUrlInput now).map Auction.images = some (PyVal.vlist []) ∧
    (Auction.fromDict imageUrlInput now).map Auction.metadata
      = some [("image_url".toList, PyVal.vstr "http://img".toList)] ∧
    (Auction.fromDict imagesNullInput now).map Auction.images = some (PyVal.vlist []) :=
  ⟨rfl, rfl, rfl⟩

theorem fixedPart_keys (a : Auction) : a.fixedPart.map Prod.fst = fixedKeys := rfl

theorem keyMem_append (k : Str) (d1 d2 : PyDict) :
    keyMem k (d1 ++ d2) = (keyMem k d1 || keyMem k d2) := by
  simp [keyMem, List.any_append]

theorem inlineMetadata_eq (meta : PyDict) :
    ∀ result, (meta.map Prod.fst).Nodup →
      inlineMetadata result meta
        = result ++ meta.filter (fun kv => !keyMem kv.1 result) := by
  induction meta with
  | nil => intro result _; simp [inlineMetadata]
  | cons kv rest ih =>
    intro result hnd
    rw [List.map_cons, List.nodup_cons] at hnd
    cases hk : keyMem kv.1 result with
    | true =>
      rw [inlineMetadata, if_pos hk, ih result hnd.2, List.filter_cons]
      simp [hk]
    | false =>
      rw [inlineMetadata, if_neg (by simp [hk]), ih (result ++ [kv]) hnd.2,
        List.filter_cons]
      have hcongr : rest.filter (fun kv2 => !keyMem kv2.1 (result ++ [kv]))
          = rest.filter (fun kv2 => !keyMem kv2.1 result) := by
        refine List.filter_congr ?_
        intro kv2 hkv2
        have hne : kv2.1 ≠ kv.1 := by
          intro h
          exact hnd.1 (h ▸ List.mem_map.mpr ⟨kv2, hkv2, rfl⟩)
        rw [keyMem_append]
        have : keyMem kv2.1 [kv] = false := by
          simp [keyMem]
          exact fun h => absurd h.symm hne
        rw [this, Bool.or_false]
      rw [hcongr]
      simp [hk, List.append_assoc]

/-- C10 as amended.  For every `Auction` whose metadata mapping has
pairwise-distinct keys (as a Python dict does): `to_dict` equals its fixed
part followed by exactly those metadata entries whose key is not among the
fixed schema keys — so a metadata entry colliding with a fixed field name
is absent, the fixed field value wins — and the output has no 'metadata'
key provided the metadata mapping itself has no entry keyed 'metadata'. -/
theorem to_dict_metadata_inlining (a : Auction)
    (hnd : (a.metadata.map Prod.fst).Nodup) :
    a.toDict = a.fixedPart ++ a.metadata.filter (fun kv => !keyMem kv.1 a.fixedPart) ∧
    ("metadata".toList ∉ a.metadata.map Prod.fst →
      "metadata".toList ∉ a.toDict.map Prod.fst) := by
  have h1 := inlineMetadata_eq a.metadata a.fixedPart hnd
  refine ⟨h1, ?_⟩
  intro hno hmem
  unfold Auction.toDict at hmem
  rw [h1, List.map_append] at hmem
  rcases List.mem_append.mp hmem with h | h
  · rw [fixedPart_keys] at h
    exact absurd h (by decide)
  · obtain ⟨kv, hkv, hfst⟩ := List.mem_map.mp h
    have hkv2 : kv ∈ a.metadata := (List.mem_filter.mp hkv).1
    exact hno (hfst ▸ List.mem_map.mpr ⟨kv, hkv2, rfl⟩)

/-- Counterexample to C10 as stated: 'metadata' is not among the fixed
schema keys of the result, so a metadata entry keyed 'metadata' is inlined
and the `to_dict` output does contain a 'metadata' key. -/
theorem to_dict_metadata_key_counterexample :
    "metadata".toList ∈ metaCollisionAuction.toDict.map Prod.fst := by decide

/-- Witness for the amended C10 at a concrete record. -/
theorem to_dict_metadata_inlining_witness :
    "metadata".toList ∉ plainMetaAuction.toDict.map Prod.fst :=
  (to_dict_metadata_inlining plainMetaAuction (by decide)).2 (by decide)
